import Mathlib

/-!
Verification of the cord expression evaluator.

The development shallowly embeds the three-stage pipeline of src/main.rs:
lexical tokenization (produce_tokens), interactive variable resolution
(populate_variables, with the console value provider injected as a list of
response lines), recursive-descent parsing (ParseExpr.expr and friends)
and tree evaluation (ParseExpr.eval).

Numeric model: Rust f32 values are modelled by F32, a rational number
together with the IEEE-754 special values +infinity, -infinity and NaN.
Rounding to binary32 and the sign of zero are not modelled; every concrete
computation appearing in the theorems below stays inside values on which
binary32 arithmetic is exact, so the model agrees with the source there.
The transcendental functions (sin, cos, tan, ln, log10, and real powers
with non-integer exponent), whose values are irrational, are kept abstract
as a RealFns interpretation that evaluation is parameterized by; no theorem
depends on their values.
-/

/-- Token mirrors the Rust enum Token of src/main.rs; the f32 payload of
Number is modelled as a rational. -/
inductive Token where
  | Plus
  | Minus
  | Star
  | Slash
  | LeftParen
  | RightParen
  | Number (n : ℚ)
  | Variable (id : String)
  | Power
  | Ln
  | Log
  | Sin
  | Cos
  | Tan
deriving DecidableEq

/-- F32 models a Rust f32 value: a finite value (as an exact rational) or
one of the IEEE special values. -/
inductive F32 where
  | finite (q : ℚ)
  | inf
  | negInf
  | nan
deriving DecidableEq

/-- RealFns is the abstract interpretation of the irrational-valued real
functions used by the evaluator: sine, cosine and tangent of a finite
argument, natural and base-10 logarithm of a positive finite argument, and
powers of a positive finite base with a non-integer exponent. -/
structure RealFns where
  sin : ℚ → ℚ
  cos : ℚ → ℚ
  tan : ℚ → ℚ
  ln : ℚ → ℚ
  log10 : ℚ → ℚ
  rpow : ℚ → ℚ → ℚ

/-- Arbitrary interpretation of the abstract real functions, used to
instantiate theorems at concrete inputs that never consult them. -/
def zeroRealFns : RealFns :=
  ⟨fun _ => 0, fun _ => 0, fun _ => 0, fun _ => 0, fun _ => 0, fun _ _ => 0⟩

/-- Negation on F32 (Rust unary minus on f32; the sign of zero is not
modelled). -/
def F32.neg : F32 → F32
  | finite q => finite (-q)
  | inf => negInf
  | negInf => inf
  | nan => nan

/-- Addition on F32 following IEEE-754. -/
def F32.add : F32 → F32 → F32
  | nan, _ => nan
  | _, nan => nan
  | inf, negInf => nan
  | negInf, inf => nan
  | inf, _ => inf
  | negInf, _ => negInf
  | _, inf => inf
  | _, negInf => negInf
  | finite a, finite b => finite (a + b)

/-- Subtraction on F32 following IEEE-754. -/
def F32.sub : F32 → F32 → F32
  | nan, _ => nan
  | _, nan => nan
  | inf, inf => nan
  | negInf, negInf => nan
  | inf, _ => inf
  | negInf, _ => negInf
  | _, inf => negInf
  | _, negInf => inf
  | finite a, finite b => finite (a - b)

/-- Multiplication on F32 following IEEE-754. -/
def F32.mul : F32 → F32 → F32
  | nan, _ => nan
  | _, nan => nan
  | finite a, finite b => finite (a * b)
  | inf, inf => inf
  | inf, negInf => negInf
  | negInf, inf => negInf
  | negInf, negInf => inf
  | inf, finite b => if 0 < b then inf else if b < 0 then negInf else nan
  | finite a, inf => if 0 < a then inf else if a < 0 then negInf else nan
  | negInf, finite b => if 0 < b then negInf else if b < 0 then inf else nan
  | finite a, negInf => if 0 < a then negInf else if a < 0 then inf else nan

/-- Division on F32 following IEEE-754: a nonzero finite value divided by
zero is a signed infinity, zero divided by zero is NaN. -/
def F32.div : F32 → F32 → F32
  | nan, _ => nan
  | _, nan => nan
  | finite a, finite b =>
    if b = 0 then (if a = 0 then nan else if 0 < a then inf else negInf)
    else finite (a / b)
  | finite _, inf => finite 0
  | finite _, negInf => finite 0
  | inf, finite b => if 0 ≤ b then inf else negInf
  | negInf, finite b => if 0 ≤ b then negInf else inf
  | inf, inf => nan
  | inf, negInf => nan
  | negInf, inf => nan
  | negInf, negInf => nan

/-- Power on F32 (Rust f32::powf) following the IEEE-754 pow special cases;
a positive finite base with a non-integer exponent has an irrational value
and is delegated to the abstract interpretation r.rpow. -/
def F32.powf (r : RealFns) : F32 → F32 → F32
  | x, F32.finite e =>
    if e = 0 then F32.finite 1
    else
      match x with
      | F32.finite b =>
        if b = 1 then F32.finite 1
        else if e.den = 1 then
          if 0 < e.num then F32.finite (b ^ e.num.toNat)
          else if b = 0 then F32.inf
          else F32.finite (b ^ e.num)
        else if b < 0 then F32.nan
        else if b = 0 then (if e < 0 then F32.inf else F32.finite 0)
        else F32.finite (r.rpow b e)
      | F32.inf => if 0 < e then F32.inf else F32.finite 0
      | F32.negInf =>
        if e.den = 1 ∧ e.num % 2 ≠ 0 then (if 0 < e then F32.negInf else F32.finite 0)
        else (if 0 < e then F32.inf else F32.finite 0)
      | F32.nan => F32.nan
  | x, F32.inf =>
    match x with
    | F32.finite b =>
      if b = 1 ∨ b = -1 then F32.finite 1
      else if -1 < b ∧ b < 1 then F32.finite 0
      else F32.inf
    | F32.nan => F32.nan
    | _ => F32.inf
  | x, F32.negInf =>
    match x with
    | F32.finite b =>
      if b = 1 ∨ b = -1 then F32.finite 1
      else if -1 < b ∧ b < 1 then F32.inf
      else F32.finite 0
    | F32.nan => F32.nan
    | _ => F32.finite 0
  | F32.finite b, F32.nan => if b = 1 then F32.finite 1 else F32.nan
  | _, F32.nan => F32.nan

/-- Sine on F32 (NaN on non-finite arguments per IEEE-754). -/
def F32.sin (r : RealFns) : F32 → F32
  | finite q => finite (r.sin q)
  | _ => nan

/-- Cosine on F32. -/
def F32.cos (r : RealFns) : F32 → F32
  | finite q => finite (r.cos q)
  | _ => nan

/-- Tangent on F32. -/
def F32.tan (r : RealFns) : F32 → F32
  | finite q => finite (r.tan q)
  | _ => nan

/-- Natural logarithm on F32: ln 0 is -infinity, the logarithm of a
negative value is NaN, per IEEE-754. -/
def F32.ln (r : RealFns) : F32 → F32
  | finite q => if q = 0 then negInf else if q < 0 then nan else finite (r.ln q)
  | inf => inf
  | negInf => nan
  | nan => nan

/-- Base-10 logarithm on F32. -/
def F32.log10 (r : RealFns) : F32 → F32
  | finite q => if q = 0 then negInf else if q < 0 then nan else finite (r.log10 q)
  | inf => inf
  | negInf => nan
  | nan => nan

/-- True on a finite F32 value, false on the infinities and NaN. -/
def F32.isFinite : F32 → Bool
  | finite _ => true
  | _ => false

/-- ParseExpr mirrors the Rust enum ParseExpr of src/main.rs: the abstract
syntax tree of binary nodes, unary nodes and leaf values. -/
inductive ParseExpr where
  | Binary (left : ParseExpr) (op : Token) (right : ParseExpr)
  | Unary (op : Token) (e : ParseExpr)
  | Value (t : Token)
deriving DecidableEq

/-- Evaluation of the syntax tree, mirroring ParseExpr::eval of
src/main.rs: a post-order walk (left child before right child) with
defensive error arms for tokens that the grammar can never place in a
node. -/
def ParseExpr.eval (r : RealFns) : ParseExpr → Except String F32
  | ParseExpr.Binary left o right =>
    match o with
    | Token.Plus => do pure (F32.add (← ParseExpr.eval r left) (← ParseExpr.eval r right))
    | Token.Star => do pure (F32.mul (← ParseExpr.eval r left) (← ParseExpr.eval r right))
    | Token.Slash => do pure (F32.div (← ParseExpr.eval r left) (← ParseExpr.eval r right))
    | Token.Minus => do pure (F32.sub (← ParseExpr.eval r left) (← ParseExpr.eval r right))
    | Token.Power => do pure (F32.powf r (← ParseExpr.eval r left) (← ParseExpr.eval r right))
    | _ => Except.error "Invalid binary operand."
  | ParseExpr.Unary o e =>
    match o with
    | Token.Minus => do pure (F32.neg (← ParseExpr.eval r e))
    | Token.Plus => ParseExpr.eval r e
    | Token.Sin => do pure (F32.sin r (← ParseExpr.eval r e))
    | Token.Cos => do pure (F32.cos r (← ParseExpr.eval r e))
    | Token.Tan => do pure (F32.tan r (← ParseExpr.eval r e))
    | Token.Ln => do pure (F32.ln r (← ParseExpr.eval r e))
    | Token.Log => do pure (F32.log10 r (← ParseExpr.eval r e))
    | _ => Except.error "Invalid unary operand."
  | ParseExpr.Value t =>
    match t with
    | Token.Number n => Except.ok (F32.finite n)
    | _ => Except.error "Invalid value"

/-- Rust char::is_ascii_digit. -/
def isAsciiDigit (c : Char) : Bool := 48 ≤ c.toNat && c.toNat ≤ 57

/-- Rust char::is_ascii_alphabetic. -/
def isAsciiAlpha (c : Char) : Bool :=
  (65 ≤ c.toNat && c.toNat ≤ 90) || (97 ≤ c.toNat && c.toNat ≤ 122)

/-- Rust char::is_ascii_alphanumeric. -/
def isAsciiAlphanum (c : Char) : Bool := isAsciiAlpha c || isAsciiDigit c

/-- Value of a list of decimal digit characters. -/
def digitsVal (s : List Char) : ℕ := s.foldl (fun a c => 10 * a + (c.toNat - 48)) 0

/-- True when every character of the list is a decimal digit. -/
def isDigits (s : List Char) : Bool := s.all isAsciiDigit

/-- Decimal number parsing without sign: digit characters with at most one
decimal point, and at least one digit. Models the portion of Rust
f32::from_str exercised by this program; scientific notation and the
inf/nan spellings are not modelled, and the value is kept exact rather
than rounded to binary32. -/
def parseUnsigned (s : List Char) : Option ℚ :=
  let ip := s.takeWhile (fun c => c ≠ '.')
  match s.dropWhile (fun c => c ≠ '.') with
  | [] => if ip ≠ [] ∧ isDigits ip then some (digitsVal ip) else none
  | _ :: fp =>
    if fp.contains '.' then none
    else if (ip ≠ [] ∨ fp ≠ []) ∧ isDigits ip ∧ isDigits fp then
      some ((digitsVal ip : ℚ) + (digitsVal fp : ℚ) / (10 : ℚ) ^ fp.length)
    else none

/-- Decimal number parsing with an optional leading sign (model of Rust
f32::from_str, see parseUnsigned). -/
def parseF32 (s : List Char) : Option ℚ :=
  match s with
  | '-' :: rest => (parseUnsigned rest).map (fun q => -q)
  | '+' :: rest => parseUnsigned rest
  | _ => parseUnsigned s

/-- Fueled single pass of the lexer, mirroring produce_tokens of
src/main.rs. Each step consumes at least one character, so fuel
exceeding the input length never runs out; the fuel only makes the
greedy literal/identifier scanning structurally terminating. -/
def produce_tokensF : Nat → List Char → Except String (List Token)
  | 0, _ => Except.error "out of fuel"
  | _ + 1, [] => Except.ok []
  | fuel + 1, c :: cs =>
    if c = '+' then (produce_tokensF fuel cs).map (fun ts => Token.Plus :: ts)
    else if c = '-' then (produce_tokensF fuel cs).map (fun ts => Token.Minus :: ts)
    else if c = '*' then (produce_tokensF fuel cs).map (fun ts => Token.Star :: ts)
    else if c = '/' then (produce_tokensF fuel cs).map (fun ts => Token.Slash :: ts)
    else if c = '^' then (produce_tokensF fuel cs).map (fun ts => Token.Power :: ts)
    else if c = '(' ∨ c = '[' then (produce_tokensF fuel cs).map (fun ts => Token.LeftParen :: ts)
    else if c = ')' ∨ c = ']' then (produce_tokensF fuel cs).map (fun ts => Token.RightParen :: ts)
    else if isAsciiDigit c then
      let ds := cs.takeWhile (fun ch => isAsciiDigit ch || ch = '.')
      let rest := cs.dropWhile (fun ch => isAsciiDigit ch || ch = '.')
      match parseF32 (c :: ds) with
      | none => Except.error "invalid float literal"
      | some q => (produce_tokensF fuel rest).map (fun ts => Token.Number q :: ts)
    else if isAsciiAlphanum c then
      let ds := cs.takeWhile isAsciiAlpha
      let rest := cs.dropWhile isAsciiAlpha
      let s := c :: ds
      if s = ['l', 'n'] then (produce_tokensF fuel rest).map (fun ts => Token.Ln :: ts)
      else if s = ['s', 'i', 'n'] then (produce_tokensF fuel rest).map (fun ts => Token.Sin :: ts)
      else if s = ['c', 'o', 's'] then (produce_tokensF fuel rest).map (fun ts => Token.Cos :: ts)
      else if s = ['t', 'a', 'n'] then (produce_tokensF fuel rest).map (fun ts => Token.Tan :: ts)
      else if s = ['l', 'o', 'g'] then (produce_tokensF fuel rest).map (fun ts => Token.Log :: ts)
      else if s.length > 1 then Except.error "Variable length cannot exceed 1"
      else (produce_tokensF fuel rest).map (fun ts => Token.Variable (String.mk s) :: ts)
    else if c = ' ' ∨ c = '\n' ∨ c = '\r' then produce_tokensF fuel cs
    else Except.error "bad expr"

/-- Lexer contract of src/main.rs: produce_tokens scans the whole input in
one pass. -/
def produce_tokens (s : List Char) : Except String (List Token) :=
  produce_tokensF (s.length + 1) s

/-- Model of Rust str::trim: drop whitespace characters from both ends. -/
def trimChars (l : List Char) : List Char :=
  (((l.dropWhile Char.isWhitespace).reverse).dropWhile Char.isWhitespace).reverse

/-- Variable resolution loop, mirroring populate_variables of src/main.rs.
The interactive console is modelled by the injected provider: the list of
response lines that successive reads of standard input would return, each
query consuming one line. The binding table is an association list
threaded through the walk, and the remaining provider lines are returned
so that the number of queries made is observable. -/
def populateAux (map : List (String × ℚ)) (provider : List String) :
    List Token → Except String (List Token × List (String × ℚ) × List String)
  | [] => Except.ok ([], map, provider)
  | t :: ts =>
    match t with
    | Token.Variable id =>
      match map.lookup id with
      | some v =>
        (populateAux map provider ts).map (fun r => (Token.Number v :: r.1, r.2))
      | none =>
        match provider with
        | [] => Except.error "provider exhausted"
        | response :: provider₁ =>
          match parseF32 (trimChars response.toList) with
          | none => Except.error "invalid variable value"
          | some v =>
            (populateAux ((id, v) :: map) provider₁ ts).map
              (fun r => (Token.Number v :: r.1, r.2))
    | _ => (populateAux map provider ts).map (fun r => (t :: r.1, r.2))

/-- Variable resolver contract of src/main.rs: starts from an empty
binding table; returns the resolved tokens together with the provider
lines left unread. -/
def populate_variables (provider : List String) (tokens : List Token) :
    Except String (List Token × List String) :=
  (populateAux [] provider tokens).map (fun r => (r.1, r.2.2))

/-- Closing step of a parenthesized group in ParseExpr::primary: the next
token must be a RightParen, which is consumed; anything else (including
end of input) is the unclosed-bracket error. -/
def ParseExpr.closeParen (e : ParseExpr) : List Token → Except String (ParseExpr × List Token)
  | Token.RightParen :: rest => Except.ok (e, rest)
  | _ => Except.error "Unclosed bracket"

mutual

/-- Rule expression of the recursive-descent parser (ParseExpr::expr in
src/main.rs). All parser rules are fueled: every cycle through the rules
consumes at least one token, so a fuel linear in the token count never
runs out; the fuel only makes the mutual recursion structural. -/
def ParseExpr.expr : Nat → List Token → Except String (ParseExpr × List Token)
  | 0, _ => Except.error "out of fuel"
  | fuel + 1, ts => ParseExpr.term fuel ts

/-- Rule term (ParseExpr::term): left-associative + and -. -/
def ParseExpr.term : Nat → List Token → Except String (ParseExpr × List Token)
  | 0, _ => Except.error "out of fuel"
  | fuel + 1, ts => do
    let (e, rest) ← ParseExpr.factor fuel ts
    ParseExpr.termLoop fuel e rest

/-- While loop of ParseExpr::term folding Binary(expr, op, factor). -/
def ParseExpr.termLoop : Nat → ParseExpr → List Token →
    Except String (ParseExpr × List Token)
  | 0, _, _ => Except.error "out of fuel"
  | _ + 1, e, [] => Except.ok (e, [])
  | fuel + 1, e, op :: rest =>
    if op = Token.Plus ∨ op = Token.Minus then do
      let (right, rest₁) ← ParseExpr.factor fuel rest
      ParseExpr.termLoop fuel (ParseExpr.Binary e op right) rest₁
    else Except.ok (e, op :: rest)

/-- Rule factor (ParseExpr::factor): left-associative * and /. -/
def ParseExpr.factor : Nat → List Token → Except String (ParseExpr × List Token)
  | 0, _ => Except.error "out of fuel"
  | fuel + 1, ts => do
    let (e, rest) ← ParseExpr.power fuel ts
    ParseExpr.factorLoop fuel e rest

/-- While loop of ParseExpr::factor folding Binary(expr, op, power). -/
def ParseExpr.factorLoop : Nat → ParseExpr → List Token →
    Except String (ParseExpr × List Token)
  | 0, _, _ => Except.error "out of fuel"
  | _ + 1, e, [] => Except.ok (e, [])
  | fuel + 1, e, op :: rest =>
    if op = Token.Star ∨ op = Token.Slash then do
      let (right, rest₁) ← ParseExpr.power fuel rest
      ParseExpr.factorLoop fuel (ParseExpr.Binary e op right) rest₁
    else Except.ok (e, op :: rest)

/-- Rule power (ParseExpr::power): left-associative ^. -/
def ParseExpr.power : Nat → List Token → Except String (ParseExpr × List Token)
  | 0, _ => Except.error "out of fuel"
  | fuel + 1, ts => do
    let (e, rest) ← ParseExpr.unary fuel ts
    ParseExpr.powerLoop fuel e rest

/-- While loop of ParseExpr::power folding Binary(expr, ^, unary). -/
def ParseExpr.powerLoop : Nat → ParseExpr → List Token →
    Except String (ParseExpr × List Token)
  | 0, _, _ => Except.error "out of fuel"
  | _ + 1, e, [] => Except.ok (e, [])
  | fuel + 1, e, op :: rest =>
    if op = Token.Power then do
      let (right, rest₁) ← ParseExpr.unary fuel rest
      ParseExpr.powerLoop fuel (ParseExpr.Binary e op right) rest₁
    else Except.ok (e, op :: rest)

/-- Rule unary (ParseExpr::unary): right-recursive prefix operators. -/
def ParseExpr.unary : Nat → List Token → Except String (ParseExpr × List Token)
  | 0, _ => Except.error "out of fuel"
  | fuel + 1, [] => ParseExpr.primary fuel []
  | fuel + 1, op :: rest =>
    if op = Token.Minus ∨ op = Token.Plus ∨ op = Token.Ln ∨ op = Token.Log ∨
        op = Token.Sin ∨ op = Token.Cos ∨ op = Token.Tan then do
      let (right, rest₁) ← ParseExpr.unary fuel rest
      Except.ok (ParseExpr.Unary op right, rest₁)
    else ParseExpr.primary fuel (op :: rest)

/-- Rule primary (ParseExpr::primary): a number literal, or a
parenthesized expression that must be followed by a closing paren
(checked by ParseExpr.closeParen). -/
def ParseExpr.primary : Nat → List Token → Except String (ParseExpr × List Token)
  | 0, _ => Except.error "out of fuel"
  | _ + 1, Token.Number n :: rest => Except.ok (ParseExpr.Value (Token.Number n), rest)
  | fuel + 1, Token.LeftParen :: rest => do
    let (e, rest₁) ← ParseExpr.expr fuel rest
    ParseExpr.closeParen e rest₁
  | _ + 1, _ => Except.error "parser failed"

end

/-- Fuel that is always sufficient for the parser on the given tokens:
between two token consumptions the parser passes through at most the
seven-deep rule chain. -/
def parseFuel (ts : List Token) : Nat := 8 * ts.length + 8

/-- Whole-parse entry point as used by evaluate in src/main.rs: parse the
token sequence, keeping only the tree (trailing tokens are dropped,
mirroring the source, which never checks that the iterator is empty). -/
def parse (ts : List Token) : Except String ParseExpr :=
  (ParseExpr.expr (parseFuel ts) ts).map (fun p => p.1)

/-- Whole pipeline, mirroring evaluate of src/main.rs: tokenize, resolve
variables against the injected provider, parse, evaluate. -/
def evaluate (r : RealFns) (provider : List String) (s : String) : Except String F32 := do
  let tokens ← produce_tokens s.toList
  let populated ← populate_variables provider tokens
  let tree ← parse populated.1
  ParseExpr.eval r tree

theorem exceptBind_ok {α β ε : Type} (a : α) (f : α → Except ε β) :
    (Except.ok a >>= f : Except ε β) = f a := rfl

theorem exceptBind_err {α β ε : Type} (e : ε) (f : α → Except ε β) :
    (Except.error e >>= f : Except ε β) = Except.error e := rfl

theorem exceptMap_ok {α β ε : Type} (a : α) (f : α → β) :
    (Except.ok a : Except ε α).map f = Except.ok (f a) := rfl

theorem exceptMap_err {α β ε : Type} (e : ε) (f : α → β) :
    (Except.error e : Except ε α).map f = Except.error e := rfl

theorem exceptPure {α ε : Type} (a : α) : (pure a : Except ε α) = Except.ok a := rfl

/-- Operator tokens the grammar can place in a Binary node. -/
def isBinOp : Token → Bool
  | Token.Plus => true
  | Token.Minus => true
  | Token.Star => true
  | Token.Slash => true
  | Token.Power => true
  | _ => false

/-- Operator tokens the grammar can place in a Unary node. -/
def isUnOp : Token → Bool
  | Token.Minus => true
  | Token.Plus => true
  | Token.Ln => true
  | Token.Log => true
  | Token.Sin => true
  | Token.Cos => true
  | Token.Tan => true
  | _ => false

/-- True on a Number token. -/
def isNum : Token → Bool
  | Token.Number _ => true
  | _ => false

/-- True on a Variable token. -/
def isVar : Token → Bool
  | Token.Variable _ => true
  | _ => false

/-- Structural invariant of trees built by the parser: Binary nodes carry
an arithmetic operator, Unary nodes a prefix operator, Value nodes a
Number token. -/
def WFExpr : ParseExpr → Bool
  | ParseExpr.Binary l o r => isBinOp o && WFExpr l && WFExpr r
  | ParseExpr.Unary o e => isUnOp o && WFExpr e
  | ParseExpr.Value t => isNum t

/-- Every tree returned by any rule of the recursive-descent parser, at
any fuel, satisfies WFExpr; the loop rules preserve it from their
accumulator. -/
theorem parser_wf : ∀ fuel : Nat,
    (∀ ts p, ParseExpr.expr fuel ts = Except.ok p → WFExpr p.1 = true) ∧
    (∀ ts p, ParseExpr.term fuel ts = Except.ok p → WFExpr p.1 = true) ∧
    (∀ e₀ ts p, ParseExpr.termLoop fuel e₀ ts = Except.ok p → WFExpr e₀ = true → WFExpr p.1 = true) ∧
    (∀ ts p, ParseExpr.factor fuel ts = Except.ok p → WFExpr p.1 = true) ∧
    (∀ e₀ ts p, ParseExpr.factorLoop fuel e₀ ts = Except.ok p → WFExpr e₀ = true → WFExpr p.1 = true) ∧
    (∀ ts p, ParseExpr.power fuel ts = Except.ok p → WFExpr p.1 = true) ∧
    (∀ e₀ ts p, ParseExpr.powerLoop fuel e₀ ts = Except.ok p → WFExpr e₀ = true → WFExpr p.1 = true) ∧
    (∀ ts p, ParseExpr.unary fuel ts = Except.ok p → WFExpr p.1 = true) ∧
    (∀ ts p, ParseExpr.primary fuel ts = Except.ok p → WFExpr p.1 = true) := by
  intro fuel
  induction fuel with
  | zero =>
    refine ⟨?_, ?_, ?_, ?_, ?_, ?_, ?_, ?_, ?_⟩ <;> intros a b <;>
      simp [ParseExpr.expr, ParseExpr.term, ParseExpr.termLoop, ParseExpr.factor,
        ParseExpr.factorLoop, ParseExpr.power, ParseExpr.powerLoop, ParseExpr.unary,
        ParseExpr.primary]
  | succ n ih =>
    obtain ⟨ihe, iht, ihtl, ihf, ihfl, ihp, ihpl, ihu, ihpr⟩ := ih
    refine ⟨?_, ?_, ?_, ?_, ?_, ?_, ?_, ?_, ?_⟩
    · intro ts p h
      exact iht ts p (by simpa [ParseExpr.expr] using h)
    · intro ts p h
      simp only [ParseExpr.term] at h
      cases hf : ParseExpr.factor n ts with
      | error e => rw [hf, exceptBind_err] at h; exact absurd h (by simp)
      | ok q =>
        obtain ⟨e, rest⟩ := q
        rw [hf, exceptBind_ok] at h
        exact ihtl e rest p h (ihf ts (e, rest) hf)
    · intro e₀ ts p h hwf
      cases ts with
      | nil =>
        simp only [ParseExpr.termLoop, Except.ok.injEq] at h
        rw [← h]; exact hwf
      | cons op rest =>
        simp only [ParseExpr.termLoop] at h
        by_cases hop : op = Token.Plus ∨ op = Token.Minus
        · rw [if_pos hop] at h
          cases hf : ParseExpr.factor n rest with
          | error e => rw [hf, exceptBind_err] at h; exact absurd h (by simp)
          | ok q =>
            obtain ⟨right, rest₁⟩ := q
            rw [hf, exceptBind_ok] at h
            refine ihtl (ParseExpr.Binary e₀ op right) rest₁ p h ?_
            have hr := ihf rest (right, rest₁) hf
            rcases hop with hop | hop <;>
              simp [WFExpr, hop, isBinOp, hwf, hr]
        · rw [if_neg hop] at h
          simp only [Except.ok.injEq] at h
          rw [← h]; exact hwf
    · intro ts p h
      simp only [ParseExpr.factor] at h
      cases hf : ParseExpr.power n ts with
      | error e => rw [hf, exceptBind_err] at h; exact absurd h (by simp)
      | ok q =>
        obtain ⟨e, rest⟩ := q
        rw [hf, exceptBind_ok] at h
        exact ihfl e rest p h (ihp ts (e, rest) hf)
    · intro e₀ ts p h hwf
      cases ts with
      | nil =>
        simp only [ParseExpr.factorLoop, Except.ok.injEq] at h
        rw [← h]; exact hwf
      | cons op rest =>
        simp only [ParseExpr.factorLoop] at h
        by_cases hop : op = Token.Star ∨ op = Token.Slash
        · rw [if_pos hop] at h
          cases hf : ParseExpr.power n rest with
          | error e => rw [hf, exceptBind_err] at h; exact absurd h (by simp)
          | ok q =>
            obtain ⟨right, rest₁⟩ := q
            rw [hf, exceptBind_ok] at h
            refine ihfl (ParseExpr.Binary e₀ op right) rest₁ p h ?_
            have hr := ihp rest (right, rest₁) hf
            rcases hop with hop | hop <;>
              simp [WFExpr, hop, isBinOp, hwf, hr]
        · rw [if_neg hop] at h
          simp only [Except.ok.injEq] at h
          rw [← h]; exact hwf
    · intro ts p h
      simp only [ParseExpr.power] at h
      cases hf : ParseExpr.unary n ts with
      | error e => rw [hf, exceptBind_err] at h; exact absurd h (by simp)
      | ok q =>
        obtain ⟨e, rest⟩ := q
        rw [hf, exceptBind_ok] at h
        exact ihpl e rest p h (ihu ts (e, rest) hf)
    · intro e₀ ts p h hwf
      cases ts with
      | nil =>
        simp only [ParseExpr.powerLoop, Except.ok.injEq] at h
        rw [← h]; exact hwf
      | cons op rest =>
        simp only [ParseExpr.powerLoop] at h
        by_cases hop : op = Token.Power
        · rw [if_pos hop] at h
          cases hf : ParseExpr.unary n rest with
          | error e => rw [hf, exceptBind_err] at h; exact absurd h (by simp)
          | ok q =>
            obtain ⟨right, rest₁⟩ := q
            rw [hf, exceptBind_ok] at h
            refine ihpl (ParseExpr.Binary e₀ op right) rest₁ p h ?_
            have hr := ihu rest (right, rest₁) hf
            simp [WFExpr, hop, isBinOp, hwf, hr]
        · rw [if_neg hop] at h
          simp only [Except.ok.injEq] at h
          rw [← h]; exact hwf
    · intro ts p h
      cases ts with
      | nil =>
        simp only [ParseExpr.unary] at h
        exact ihpr [] p h
      | cons op rest =>
        simp only [ParseExpr.unary] at h
        by_cases hop : op = Token.Minus ∨ op = Token.Plus ∨ op = Token.Ln ∨ op = Token.Log ∨
            op = Token.Sin ∨ op = Token.Cos ∨ op = Token.Tan
        · rw [if_pos hop] at h
          cases hu : ParseExpr.unary n rest with
          | error e => rw [hu, exceptBind_err] at h; exact absurd h (by simp)
          | ok q =>
            obtain ⟨right, rest₁⟩ := q
            rw [hu, exceptBind_ok] at h
            simp only [Except.ok.injEq] at h
            rw [← h]
            have hr := ihu rest (right, rest₁) hu
            rcases hop with hop | hop | hop | hop | hop | hop | hop <;>
              simp [WFExpr, hop, isUnOp, hr]
        · rw [if_neg hop] at h
          exact ihpr (op :: rest) p h
    · intro ts p h
      cases ts with
      | nil => simp [ParseExpr.primary] at h
      | cons t rest =>
        cases t
        case Number m =>
          simp only [ParseExpr.primary, Except.ok.injEq] at h
          rw [← h]; simp [WFExpr, isNum]
        case LeftParen =>
          simp only [ParseExpr.primary] at h
          cases he : ParseExpr.expr n rest with
          | error e => rw [he, exceptBind_err] at h; simp at h
          | ok q =>
            obtain ⟨e, rest₁⟩ := q
            rw [he, exceptBind_ok] at h
            cases rest₁ with
            | nil => simp [ParseExpr.closeParen] at h
            | cons t₂ rest₂ =>
              cases t₂
              case RightParen =>
                simp only [ParseExpr.closeParen, Except.ok.injEq] at h
                rw [← h]
                exact ihe rest (e, Token.RightParen :: rest₂) he
              all_goals simp [ParseExpr.closeParen] at h
        all_goals simp [ParseExpr.primary] at h

/-- Evaluation is total on well-formed trees: every tree satisfying
WFExpr evaluates to Ok under every interpretation of the abstract real
functions; none of the defensive error arms of ParseExpr.eval is
reachable from such a tree. -/
theorem eval_total (r : RealFns) :
    ∀ e : ParseExpr, WFExpr e = true → ∃ v, ParseExpr.eval r e = Except.ok v := by
  intro e
  induction e with
  | Binary l o rt ihl ihr =>
    intro hwf
    simp only [WFExpr, Bool.and_eq_true] at hwf
    obtain ⟨⟨hop, hl⟩, hr⟩ := hwf
    obtain ⟨vl, hvl⟩ := ihl hl
    obtain ⟨vr, hvr⟩ := ihr hr
    cases o
    case Plus => exact ⟨F32.add vl vr, by simp [ParseExpr.eval, hvl, hvr, exceptBind_ok, exceptPure]⟩
    case Minus => exact ⟨F32.sub vl vr, by simp [ParseExpr.eval, hvl, hvr, exceptBind_ok, exceptPure]⟩
    case Star => exact ⟨F32.mul vl vr, by simp [ParseExpr.eval, hvl, hvr, exceptBind_ok, exceptPure]⟩
    case Slash => exact ⟨F32.div vl vr, by simp [ParseExpr.eval, hvl, hvr, exceptBind_ok, exceptPure]⟩
    case Power => exact ⟨F32.powf r vl vr, by simp [ParseExpr.eval, hvl, hvr, exceptBind_ok, exceptPure]⟩
    all_goals simp [isBinOp] at hop
  | Unary o e ih =>
    intro hwf
    simp only [WFExpr, Bool.and_eq_true] at hwf
    obtain ⟨hop, he⟩ := hwf
    obtain ⟨ve, hve⟩ := ih he
    cases o
    case Minus => exact ⟨F32.neg ve, by simp [ParseExpr.eval, hve, exceptBind_ok, exceptPure]⟩
    case Plus => exact ⟨ve, by simp [ParseExpr.eval, hve]⟩
    case Sin => exact ⟨F32.sin r ve, by simp [ParseExpr.eval, hve, exceptBind_ok, exceptPure]⟩
    case Cos => exact ⟨F32.cos r ve, by simp [ParseExpr.eval, hve, exceptBind_ok, exceptPure]⟩
    case Tan => exact ⟨F32.tan r ve, by simp [ParseExpr.eval, hve, exceptBind_ok, exceptPure]⟩
    case Ln => exact ⟨F32.ln r ve, by simp [ParseExpr.eval, hve, exceptBind_ok, exceptPure]⟩
    case Log => exact ⟨F32.log10 r ve, by simp [ParseExpr.eval, hve, exceptBind_ok, exceptPure]⟩
    all_goals simp [isUnOp] at hop
  | Value t =>
    intro hwf
    cases t
    case Number m => exact ⟨F32.finite m, by simp [ParseExpr.eval]⟩
    all_goals simp [WFExpr, isNum] at hwf

theorem isAsciiAlpha_not_digit {c : Char} (h : isAsciiAlpha c = true) :
    isAsciiDigit c = false := by
  rw [Bool.eq_false_iff]
  intro hd
  simp only [isAsciiAlpha, Bool.or_eq_true, Bool.and_eq_true, decide_eq_true_eq] at h
  simp only [isAsciiDigit, Bool.and_eq_true, decide_eq_true_eq] at hd
  omega

theorem isAsciiDigit_not_alpha {d : Char} (h : isAsciiDigit d = true) :
    isAsciiAlpha d = false := by
  rw [Bool.eq_false_iff]
  intro ha
  simp only [isAsciiAlpha, Bool.or_eq_true, Bool.and_eq_true, decide_eq_true_eq] at ha
  simp only [isAsciiDigit, Bool.and_eq_true, decide_eq_true_eq] at h
  omega

theorem isAsciiAlpha_ne {c : Char} (h : isAsciiAlpha c = true) :
    c ≠ '+' ∧ c ≠ '-' ∧ c ≠ '*' ∧ c ≠ '/' ∧ c ≠ '^' ∧
      c ≠ '(' ∧ c ≠ '[' ∧ c ≠ ')' ∧ c ≠ ']' := by
  refine ⟨?_, ?_, ?_, ?_, ?_, ?_, ?_, ?_, ?_⟩ <;> rintro rfl <;> revert h <;> decide

/-- Character lists the lexer recognizes as function keywords. -/
def keywordList : List (List Char) :=
  [['l', 'n'], ['s', 'i', 'n'], ['c', 'o', 's'], ['t', 'a', 'n'], ['l', 'o', 'g']]

/-- Lexer step on a letter followed immediately by a digit: the greedy
identifier scan consumes alphabetic characters only, so it stops before
the digit and emits a single-character Variable token; the digit is lexed
as part of the following tokens. -/
theorem lex_letter_digit (c d : Char) (cs : List Char)
    (hA : isAsciiAlpha c = true) (hD : isAsciiDigit d = true) :
    produce_tokens (c :: d :: cs) =
      (produce_tokens (d :: cs)).map (fun ts => Token.Variable (String.mk [c]) :: ts) := by
  obtain ⟨h1, h2, h3, h4, h5, h6, h7, h8, h9⟩ := isAsciiAlpha_ne hA
  show produce_tokensF ((d :: cs).length + 1 + 1) (c :: d :: cs) = _
  simp only [produce_tokensF]
  rw [if_neg (by simp [h1]), if_neg (by simp [h2]), if_neg (by simp [h3]),
    if_neg (by simp [h4]), if_neg (by simp [h5]), if_neg (by simp [h6, h7]),
    if_neg (by simp [h8, h9]), if_neg (by simp [isAsciiAlpha_not_digit hA]),
    if_pos (by simp [isAsciiAlphanum, hA])]
  simp only [List.takeWhile_cons, List.dropWhile_cons, isAsciiDigit_not_alpha hD,
    Bool.false_eq_true, if_false, reduceIte]
  simp [produce_tokens]

/-- Lexer step on two consecutive letters: the greedy identifier scan
produces an identifier of length at least two, and unless it is one of
the five keywords the lexer fails with the variable-length error. -/
theorem lex_multichar_error (c c₂ : Char) (cs : List Char)
    (hA : isAsciiAlpha c = true) (hA₂ : isAsciiAlpha c₂ = true)
    (hK : (c :: c₂ :: cs.takeWhile isAsciiAlpha) ∉ keywordList) :
    produce_tokens (c :: c₂ :: cs) = Except.error "Variable length cannot exceed 1" := by
  obtain ⟨h1, h2, h3, h4, h5, h6, h7, h8, h9⟩ := isAsciiAlpha_ne hA
  simp only [keywordList, List.mem_cons, List.not_mem_nil, or_false, not_or] at hK
  obtain ⟨k1, k2, k3, k4, k5⟩ := hK
  show produce_tokensF ((c₂ :: cs).length + 1 + 1) (c :: c₂ :: cs) = _
  simp only [produce_tokensF]
  rw [if_neg (by simp [h1]), if_neg (by simp [h2]), if_neg (by simp [h3]),
    if_neg (by simp [h4]), if_neg (by simp [h5]), if_neg (by simp [h6, h7]),
    if_neg (by simp [h8, h9]), if_neg (by simp [isAsciiAlpha_not_digit hA]),
    if_pos (by simp [isAsciiAlphanum, hA])]
  simp only [List.takeWhile_cons, hA₂, if_true, reduceIte]
  rw [if_neg k1, if_neg k2, if_neg k3, if_neg k4, if_neg k5,
    if_pos (by simp [Nat.lt_of_sub_eq_succ])]

/-- Identifiers the resolver will query the provider for, in order: the
first occurrences of variable identifiers that are not already bound in
keys. -/
def distinctUnboundVars (keys : List String) : List Token → List String
  | [] => []
  | Token.Variable id :: ts =>
    if id ∈ keys then distinctUnboundVars keys ts
    else id :: distinctUnboundVars (id :: keys) ts
  | _ :: ts => distinctUnboundVars keys ts

theorem mem_distinctUnboundVars (x : String) :
    ∀ (ts : List Token) (keys : List String),
      x ∈ distinctUnboundVars keys ts ↔ (Token.Variable x ∈ ts ∧ x ∉ keys) := by
  intro ts
  induction ts with
  | nil => intro keys; simp [distinctUnboundVars]
  | cons t ts ih =>
    intro keys
    cases t
    case Variable id =>
      by_cases hid : id ∈ keys
      · rw [show distinctUnboundVars keys (Token.Variable id :: ts) =
            distinctUnboundVars keys ts from by simp [distinctUnboundVars, hid]]
        rw [ih keys]
        constructor
        · rintro ⟨hmem, hk⟩
          exact ⟨List.mem_cons_of_mem _ hmem, hk⟩
        · rintro ⟨hmem, hk⟩
          rcases List.mem_cons.mp hmem with heq | hmem₁
          · injection heq with hxi
            exact absurd (hxi ▸ hid) hk
          · exact ⟨hmem₁, hk⟩
      · rw [show distinctUnboundVars keys (Token.Variable id :: ts) =
            id :: distinctUnboundVars (id :: keys) ts from by simp [distinctUnboundVars, hid]]
        by_cases hx : x = id
        · subst hx
          simp [hid]
        · rw [List.mem_cons]
          simp only [hx, false_or]
          rw [ih (id :: keys)]
          constructor
          · rintro ⟨hmem, hk⟩
            exact ⟨List.mem_cons_of_mem _ hmem,
              fun hq => hk (List.mem_cons_of_mem _ hq)⟩
          · rintro ⟨hmem, hk⟩
            rcases List.mem_cons.mp hmem with heq | hmem₁
            · injection heq with hxi
              exact absurd hxi hx
            · refine ⟨hmem₁, fun hq => ?_⟩
              rcases List.mem_cons.mp hq with h | h
              · exact hx h
              · exact hk h
    all_goals simp [distinctUnboundVars, ih keys]

theorem distinctUnboundVars_nodup :
    ∀ (ts : List Token) (keys : List String), (distinctUnboundVars keys ts).Nodup := by
  intro ts
  induction ts with
  | nil => intro keys; simp [distinctUnboundVars]
  | cons t ts ih =>
    intro keys
    cases t
    case Variable id =>
      by_cases hid : id ∈ keys
      · rw [show distinctUnboundVars keys (Token.Variable id :: ts) =
            distinctUnboundVars keys ts from by simp [distinctUnboundVars, hid]]
        exact ih keys
      · rw [show distinctUnboundVars keys (Token.Variable id :: ts) =
            id :: distinctUnboundVars (id :: keys) ts from by simp [distinctUnboundVars, hid]]
        refine List.nodup_cons.mpr ⟨?_, ih (id :: keys)⟩
        intro hmem
        exact ((mem_distinctUnboundVars id ts (id :: keys)).mp hmem).2 (List.mem_cons_self id keys)
    all_goals simpa [distinctUnboundVars] using ih keys

theorem lookup_none_not_mem {id : String} :
    ∀ {map : List (String × ℚ)}, map.lookup id = none → id ∉ map.map Prod.fst := by
  intro map
  induction map with
  | nil => intro _; simp
  | cons kv map ih =>
    intro h
    obtain ⟨k, v⟩ := kv
    simp only [List.lookup] at h
    by_cases hk : id = k
    · rw [hk, beq_self_eq_true] at h; simp at h
    · rw [show (id == k) = false from beq_eq_false_iff_ne.mpr hk] at h
      simp only [List.map_cons, List.mem_cons]
      rintro (heq | hmem)
      · exact hk heq
      · exact ih h hmem

theorem lookup_some_mem {id : String} {v : ℚ} :
    ∀ {map : List (String × ℚ)}, map.lookup id = some v → id ∈ map.map Prod.fst := by
  intro map
  induction map with
  | nil => intro h; simp [List.lookup] at h
  | cons kv map ih =>
    intro h
    obtain ⟨k, w⟩ := kv
    simp only [List.lookup] at h
    by_cases hk : id = k
    · simp [hk]
    · rw [show (id == k) = false from beq_eq_false_iff_ne.mpr hk] at h
      simp only [List.map_cons, List.mem_cons]
      exact Or.inr (ih h)

/-- Counting lemma for the resolver: on success, the number of provider
lines consumed equals the number of first occurrences of identifiers not
bound in the initial table. -/
theorem populateAux_queries :
    ∀ (ts : List Token) (map : List (String × ℚ)) (provider : List String) out m₁ p₁,
      populateAux map provider ts = Except.ok (out, m₁, p₁) →
      provider.length = (distinctUnboundVars (map.map Prod.fst) ts).length + p₁.length := by
  intro ts
  induction ts with
  | nil =>
    intro map provider out m₁ p₁ h
    simp only [populateAux, Except.ok.injEq, Prod.mk.injEq] at h
    rw [← h.2.2]
    simp [distinctUnboundVars]
  | cons t ts ih =>
    intro map provider out m₁ p₁ h
    cases t
    case Variable id =>
      simp only [populateAux] at h
      cases hl : map.lookup id with
      | some v =>
        simp only [hl] at h
        cases hp : populateAux map provider ts with
        | error e => rw [hp, exceptMap_err] at h; simp at h
        | ok q =>
          obtain ⟨out₁, m₂, p₂⟩ := q
          rw [hp, exceptMap_ok] at h
          simp only [Except.ok.injEq, Prod.mk.injEq] at h
          rw [show distinctUnboundVars (map.map Prod.fst) (Token.Variable id :: ts) =
              distinctUnboundVars (map.map Prod.fst) ts from by
            simp [distinctUnboundVars, lookup_some_mem hl]]
          rw [← h.2.2]
          exact ih map provider out₁ m₂ p₂ hp
      | none =>
        simp only [hl] at h
        cases provider with
        | nil => simp at h
        | cons response provider₁ =>
          cases hv : parseF32 (trimChars response.toList) with
          | none => simp only [hv] at h; simp at h
          | some v =>
            simp only [hv] at h
            cases hp : populateAux ((id, v) :: map) provider₁ ts with
            | error e => rw [hp, exceptMap_err] at h; simp at h
            | ok q =>
              obtain ⟨out₁, m₂, p₂⟩ := q
              rw [hp, exceptMap_ok] at h
              simp only [Except.ok.injEq, Prod.mk.injEq] at h
              rw [show distinctUnboundVars (map.map Prod.fst) (Token.Variable id :: ts) =
                  id :: distinctUnboundVars (id :: map.map Prod.fst) ts from by
                simp [distinctUnboundVars, lookup_none_not_mem hl]]
              have := ih ((id, v) :: map) provider₁ out₁ m₂ p₂ hp
              simp only [List.map_cons] at this
              rw [← h.2.2]
              simp only [List.length_cons]
              omega
    all_goals
      simp only [populateAux] at h
      cases hp : populateAux map provider ts with
      | error e => rw [hp, exceptMap_err] at h; simp at h
      | ok q =>
        obtain ⟨out₁, m₂, p₂⟩ := q
        rw [hp, exceptMap_ok] at h
        simp only [Except.ok.injEq, Prod.mk.injEq] at h
        rw [← h.2.2]
        simpa [distinctUnboundVars] using ih map provider out₁ m₂ p₂ hp

/-- Shape lemma for the resolver: on success the output is elementwise
aligned with the input; every output token is a non-Variable token, and
every non-Variable input token is passed through unchanged at its own
position. -/
theorem populateAux_shape :
    ∀ (ts : List Token) (map : List (String × ℚ)) (provider : List String) out m₁ p₁,
      populateAux map provider ts = Except.ok (out, m₁, p₁) →
      List.Forall₂ (fun a b => isVar b = false ∧ (isVar a = false → b = a)) ts out := by
  intro ts
  induction ts with
  | nil =>
    intro map provider out m₁ p₁ h
    simp only [populateAux, Except.ok.injEq, Prod.mk.injEq] at h
    rw [← h.1]
    exact List.Forall₂.nil
  | cons t ts ih =>
    intro map provider out m₁ p₁ h
    cases t
    case Variable id =>
      simp only [populateAux] at h
      cases hl : map.lookup id with
      | some v =>
        simp only [hl] at h
        cases hp : populateAux map provider ts with
        | error e => rw [hp, exceptMap_err] at h; simp at h
        | ok q =>
          obtain ⟨out₁, m₂, p₂⟩ := q
          rw [hp, exceptMap_ok] at h
          simp only [Except.ok.injEq, Prod.mk.injEq] at h
          rw [← h.1]
          exact List.Forall₂.cons ⟨rfl, fun hv => absurd hv (by simp [isVar])⟩
            (ih map provider out₁ m₂ p₂ hp)
      | none =>
        simp only [hl] at h
        cases provider with
        | nil => simp at h
        | cons response provider₁ =>
          cases hv : parseF32 (trimChars response.toList) with
          | none => simp only [hv] at h; simp at h
          | some v =>
            simp only [hv] at h
            cases hp : populateAux ((id, v) :: map) provider₁ ts with
            | error e => rw [hp, exceptMap_err] at h; simp at h
            | ok q =>
              obtain ⟨out₁, m₂, p₂⟩ := q
              rw [hp, exceptMap_ok] at h
              simp only [Except.ok.injEq, Prod.mk.injEq] at h
              rw [← h.1]
              exact List.Forall₂.cons ⟨rfl, fun hw => absurd hw (by simp [isVar])⟩
                (ih ((id, v) :: map) provider₁ out₁ m₂ p₂ hp)
    all_goals
      simp only [populateAux] at h
      cases hp : populateAux map provider ts with
      | error e => rw [hp, exceptMap_err] at h; simp at h
      | ok q =>
        obtain ⟨out₁, m₂, p₂⟩ := q
        rw [hp, exceptMap_ok] at h
        simp only [Except.ok.injEq, Prod.mk.injEq] at h
        rw [← h.1]
        exact List.Forall₂.cons ⟨rfl, fun _ => rfl⟩ (ih map provider out₁ m₂ p₂ hp)

/-- Claim C1: evaluating "3 + 4 * 2 / ( 1 - 5 )" (tokenize, parse, eval,
no variables) succeeds and returns 1.0: multiplication and division bind
tighter than addition and subtraction and parenthesized groups are
evaluated first. -/
theorem claim1_operator_precedence (r : RealFns) :
    evaluate r [] "3 + 4 * 2 / ( 1 - 5 )" = Except.ok (F32.finite 1) := by
  have h1 : produce_tokens "3 + 4 * 2 / ( 1 - 5 )".toList = Except.ok
      [Token.Number 3, Token.Plus, Token.Number 4, Token.Star, Token.Number 2, Token.Slash,
       Token.LeftParen, Token.Number 1, Token.Minus, Token.Number 5, Token.RightParen] := rfl
  have h2 : populate_variables []
      [Token.Number 3, Token.Plus, Token.Number 4, Token.Star, Token.Number 2, Token.Slash,
       Token.LeftParen, Token.Number 1, Token.Minus, Token.Number 5, Token.RightParen] =
      Except.ok ([Token.Number 3, Token.Plus, Token.Number 4, Token.Star, Token.Number 2,
        Token.Slash, Token.LeftParen, Token.Number 1, Token.Minus, Token.Number 5,
        Token.RightParen], []) := rfl
  have h3 : parse
      [Token.Number 3, Token.Plus, Token.Number 4, Token.Star, Token.Number 2, Token.Slash,
       Token.LeftParen, Token.Number 1, Token.Minus, Token.Number 5, Token.RightParen] =
      Except.ok (ParseExpr.Binary (ParseExpr.Value (Token.Number 3)) Token.Plus
        (ParseExpr.Binary
          (ParseExpr.Binary (ParseExpr.Value (Token.Number 4)) Token.Star
            (ParseExpr.Value (Token.Number 2)))
          Token.Slash
          (ParseExpr.Binary (ParseExpr.Value (Token.Number 1)) Token.Minus
            (ParseExpr.Value (Token.Number 5))))) := rfl
  unfold evaluate
  rw [h1, exceptBind_ok, h2, exceptBind_ok, h3, exceptBind_ok]
  simp only [ParseExpr.eval, exceptBind_ok, exceptPure, Except.ok.injEq]
  norm_num [F32.add, F32.sub, F32.mul, F32.div]

/-- Claim C2, counterexample: the input "x1" (a letter immediately
followed by a digit) does NOT fail tokenization; it lexes as a Variable
token followed by a Number token, refuting the claim that every such
input fails with a LexError. -/
theorem claim2_counterexample :
    produce_tokens "x1".toList = Except.ok [Token.Variable "x", Token.Number 1] := rfl

/-- Claim C2 (amended): the lexer greedily consumes subsequent ALPHABETIC
(not alphanumeric) characters into one identifier; a letter immediately
followed by a digit therefore ends the identifier before the digit and
yields a single-character Variable token followed by the tokens of the
rest (no failure); an identifier of length greater than 1 that is not one
of the keywords ln, sin, cos, tan, log fails with the LexError. -/
theorem claim2_amended :
    (∀ c d cs, isAsciiAlpha c = true → isAsciiDigit d = true →
      produce_tokens (c :: d :: cs) =
        (produce_tokens (d :: cs)).map (fun ts => Token.Variable (String.mk [c]) :: ts)) ∧
    (∀ c c₂ cs, isAsciiAlpha c = true → isAsciiAlpha c₂ = true →
      (c :: c₂ :: cs.takeWhile isAsciiAlpha) ∉ keywordList →
      produce_tokens (c :: c₂ :: cs) = Except.error "Variable length cannot exceed 1") ∧
    produce_tokens "x1".toList = Except.ok [Token.Variable "x", Token.Number 1] :=
  ⟨fun c d cs hA hD => lex_letter_digit c d cs hA hD,
   fun c c₂ cs hA hA₂ hK => lex_multichar_error c c₂ cs hA hA₂ hK, rfl⟩

theorem claim2_amended_witness :
    produce_tokens ['x', '1'] =
      (produce_tokens ['1']).map (fun ts => Token.Variable (String.mk ['x']) :: ts) ∧
    produce_tokens ['a', 'b'] = Except.error "Variable length cannot exceed 1" :=
  ⟨claim2_amended.1 'x' '1' [] (by decide) (by decide),
   claim2_amended.2.1 'a' 'b' [] (by decide) (by decide) (by decide)⟩

/-- Claim C3: the resolver queries the provider exactly once per distinct
variable identifier (the count of provider lines consumed equals the
length of the duplicate-free list of identifiers occurring in the input),
and "a + a" with provider line "5" evaluates to 10.0 consuming exactly
that one line. -/
theorem claim3_memoized_queries :
    (∀ provider ts out p₁, populate_variables provider ts = Except.ok (out, p₁) →
      provider.length = (distinctUnboundVars [] ts).length + p₁.length) ∧
    (∀ r : RealFns, evaluate r ["5"] "a + a" = Except.ok (F32.finite 10)) ∧
    populate_variables ["5"] [Token.Variable "a", Token.Plus, Token.Variable "a"] =
      Except.ok ([Token.Number 5, Token.Plus, Token.Number 5], []) := by
  refine ⟨?_, ?_, rfl⟩
  · intro provider ts out p₁ h
    unfold populate_variables at h
    cases hp : populateAux [] provider ts with
    | error e => rw [hp, exceptMap_err] at h; simp at h
    | ok q =>
      obtain ⟨out₁, m₁, p₂⟩ := q
      rw [hp, exceptMap_ok] at h
      simp only [Except.ok.injEq, Prod.mk.injEq] at h
      rw [← h.2]
      exact populateAux_queries ts [] provider out₁ m₁ p₂ hp
  · intro r
    have h1 : produce_tokens "a + a".toList =
        Except.ok [Token.Variable "a", Token.Plus, Token.Variable "a"] := rfl
    have h2 : populate_variables ["5"] [Token.Variable "a", Token.Plus, Token.Variable "a"] =
        Except.ok ([Token.Number 5, Token.Plus, Token.Number 5], []) := rfl
    have h3 : parse [Token.Number 5, Token.Plus, Token.Number 5] =
        Except.ok (ParseExpr.Binary (ParseExpr.Value (Token.Number 5)) Token.Plus
          (ParseExpr.Value (Token.Number 5))) := rfl
    unfold evaluate
    rw [h1, exceptBind_ok, h2, exceptBind_ok, h3, exceptBind_ok]
    simp only [ParseExpr.eval, exceptBind_ok, exceptPure, Except.ok.injEq]
    norm_num [F32.add]

theorem claim3_memoized_queries_witness :
    (["5"] : List String).length =
      (distinctUnboundVars [] [Token.Variable "a", Token.Plus, Token.Variable "a"]).length +
        ([] : List String).length :=
  claim3_memoized_queries.1 ["5"] [Token.Variable "a", Token.Plus, Token.Variable "a"]
    [Token.Number 5, Token.Plus, Token.Number 5] [] (by rfl)

/-- Claim C4: on every token sequence on which the parser succeeds (at any
fuel), the resulting tree is well-formed and evaluating it always returns
Ok under any interpretation; none of the defensive arms (invalid binary
operand, invalid unary operand, invalid value) is reachable. -/
theorem claim4_eval_total_on_parser_output (r : RealFns) (fuel : Nat) (ts : List Token)
    (e : ParseExpr) (rest : List Token) (h : ParseExpr.expr fuel ts = Except.ok (e, rest)) :
    WFExpr e = true ∧ ∃ v, ParseExpr.eval r e = Except.ok v :=
  ⟨(parser_wf fuel).1 ts (e, rest) h,
   eval_total r e ((parser_wf fuel).1 ts (e, rest) h)⟩

theorem claim4_eval_total_witness :
    WFExpr (ParseExpr.Value (Token.Number 1)) = true ∧
      ∃ v, ParseExpr.eval zeroRealFns (ParseExpr.Value (Token.Number 1)) = Except.ok v :=
  claim4_eval_total_on_parser_output zeroRealFns 8 [Token.Number 1]
    (ParseExpr.Value (Token.Number 1)) [] (by rfl)

/-- Claim C5: whenever the resolver succeeds, its output is elementwise
aligned with the input, contains no Variable token, and every
non-Variable input token passes through unchanged in its original
position. -/
theorem claim5_no_variable_tokens (provider : List String) (ts out : List Token)
    (p₁ : List String) (h : populate_variables provider ts = Except.ok (out, p₁)) :
    List.Forall₂ (fun a b => isVar b = false ∧ (isVar a = false → b = a)) ts out := by
  unfold populate_variables at h
  cases hp : populateAux [] provider ts with
  | error e => rw [hp, exceptMap_err] at h; simp at h
  | ok q =>
    obtain ⟨out₁, m₁, p₂⟩ := q
    rw [hp, exceptMap_ok] at h
    simp only [Except.ok.injEq, Prod.mk.injEq] at h
    rw [← h.1]
    exact populateAux_shape ts [] provider out₁ m₁ p₂ hp

theorem claim5_no_variable_tokens_witness :
    List.Forall₂ (fun a b => isVar b = false ∧ (isVar a = false → b = a))
      [Token.Variable "a", Token.Plus, Token.Variable "a"]
      [Token.Number 5, Token.Plus, Token.Number 5] :=
  claim5_no_variable_tokens ["5"] [Token.Variable "a", Token.Plus, Token.Variable "a"]
    [Token.Number 5, Token.Plus, Token.Number 5] [] (by rfl)

/-- Claim C6: the power level of the parser folds left-associatively:
Number(a) ^ Number(b) ^ Number(c) parses to
Binary(Binary(Value a, ^, Value b), ^, Value c), and "2^3^2" evaluates to
64.0 (not 512.0). -/
theorem claim6_power_left_assoc :
    (∀ a b c : ℚ,
      parse [Token.Number a, Token.Power, Token.Number b, Token.Power, Token.Number c] =
        Except.ok (ParseExpr.Binary
          (ParseExpr.Binary (ParseExpr.Value (Token.Number a)) Token.Power
            (ParseExpr.Value (Token.Number b)))
          Token.Power (ParseExpr.Value (Token.Number c)))) ∧
    (∀ r : RealFns, evaluate r [] "2^3^2" = Except.ok (F32.finite 64)) :=
  ⟨fun _ _ _ => rfl, fun _ => rfl⟩

/-- Claim C7: "1/0" and "0^(-1)" both run the whole pipeline successfully
and return a non-finite numeric value (no error at any stage), following
IEEE semantics of division by zero and of a zero base with a negative
exponent. -/
theorem claim7_ieee_nonfinite (r : RealFns) :
    (∃ v, evaluate r [] "1/0" = Except.ok v ∧ v.isFinite = false) ∧
    (∃ v, evaluate r [] "0^(-1)" = Except.ok v ∧ v.isFinite = false) :=
  ⟨⟨F32.inf, rfl, rfl⟩, ⟨F32.inf, rfl, rfl⟩⟩

/-- Claim C8: whenever primary consumes a LeftParen and the recursively
parsed inner expression is not immediately followed by a RightParen
(including end of input), primary fails with the unclosed-bracket
ParseError; the pipeline on "(1 + 2" returns that error and never a
numeric result. -/
theorem claim8_unclosed_bracket :
    (∀ fuel ts e rest, ParseExpr.expr fuel ts = Except.ok (e, rest) →
      rest.head? ≠ some Token.RightParen →
      ParseExpr.primary (fuel + 1) (Token.LeftParen :: ts) =
        Except.error "Unclosed bracket") ∧
    (∀ (r : RealFns) (p : List String),
      evaluate r p "(1 + 2" = Except.error "Unclosed bracket") := by
  constructor
  · intro fuel ts e rest h hne
    simp only [ParseExpr.primary]
    rw [h, exceptBind_ok]
    cases rest with
    | nil => rfl
    | cons t r₂ =>
      cases t
      case RightParen => simp at hne
      all_goals rfl
  · intro r p
    rfl

theorem claim8_unclosed_bracket_witness :
    ParseExpr.primary 9 [Token.LeftParen, Token.Number 1] =
      Except.error "Unclosed bracket" :=
  claim8_unclosed_bracket.1 8 [Token.Number 1] (ParseExpr.Value (Token.Number 1)) []
    (by rfl) (by simp)

/-- Claim C9: the parser does not require full consumption of the token
sequence: when the tokens begin with a complete top-level expression
followed by further tokens, parse succeeds with the tree of that leading
expression and silently ignores the trailing tokens; the tokens of "1 2"
parse to Value(1) and the pipeline evaluates them to 1.0 without error. -/
theorem claim9_trailing_tokens :
    (∀ ts e rest, ParseExpr.expr (parseFuel ts) ts = Except.ok (e, rest) → rest ≠ [] →
      parse ts = Except.ok e) ∧
    parse [Token.Number 1, Token.Number 2] = Except.ok (ParseExpr.Value (Token.Number 1)) ∧
    (∀ (r : RealFns) (p : List String), evaluate r p "1 2" = Except.ok (F32.finite 1)) := by
  refine ⟨?_, rfl, fun r p => rfl⟩
  intro ts e rest h _
  unfold parse
  rw [h, exceptMap_ok]

theorem claim9_trailing_tokens_witness :
    parse [Token.Number 3, Token.Number 4] = Except.ok (ParseExpr.Value (Token.Number 3)) :=
  claim9_trailing_tokens.1 [Token.Number 3, Token.Number 4]
    (ParseExpr.Value (Token.Number 3)) [Token.Number 4] (by rfl) (by simp)

/-- Claim C10: tokenizing the empty string succeeds with an empty token
sequence, parsing an empty token sequence fails with the ParseError, and
the whole pipeline on the empty string fails producing no numeric
result. -/
theorem claim10_empty_input :
    produce_tokens "".toList = Except.ok [] ∧
    parse [] = Except.error "parser failed" ∧
    (∀ (r : RealFns) (p : List String), evaluate r p "" = Except.error "parser failed") :=
  ⟨rfl, rfl, fun _ _ => rfl⟩
